import Mathlib

/-!
A verification development for the TextProcessor transformation pipeline
(`src/textprocessor/transformer.py` together with the backup helper
`create_backup` from `src/textprocessor/utils.py`).

Text is modelled at the `List Char` level so that every operation is
executable by kernel reduction; `String` wrappers are used at the public
boundary.  The concrete regular expressions appearing in the source are
modelled as recursive functions on `List Char` implementing their matching
semantics; the character classes involved (`\w`, `\s`, `\d`) and the
Python `str.lower`/`str.upper` case maps are modelled on their ASCII
behaviour, which is the fragment exercised by the specification.
-/

namespace TextProcessor

/-- Model of the regex class `\w` restricted to ASCII: letters, digits and
the underscore. -/
def isWordCh (c : Char) : Bool := c.isAlphanum || c == '_'

/-- Model of the regex class `\s` and of the whitespace notion used by
`str.strip` / `str.rstrip` (ASCII fragment). -/
def isSpaceCh (c : Char) : Bool := c.isWhitespace

/-- Model of Python `text.split(chr(10))`: split on every newline character,
keeping empty pieces; the empty text yields one empty line. -/
def splitLinesAux (acc : List Char) : List Char → List (List Char)
  | [] => [acc.reverse]
  | c :: rest =>
    if c == '\n' then acc.reverse :: splitLinesAux [] rest
    else splitLinesAux (c :: acc) rest

/-- Split a character list into its lines, Python `str.split` style. -/
def splitLines (l : List Char) : List (List Char) := splitLinesAux [] l

/-- Model of joining lines back with a newline separator. -/
def joinLines (ls : List (List Char)) : List Char := List.intercalate ['\n'] ls

/-- Model of Python `str.rstrip()`: drop trailing whitespace. -/
def rstripC (l : List Char) : List Char := (l.reverse.dropWhile isSpaceCh).reverse

/-- Model of Python `str.strip()`: drop leading and trailing whitespace. -/
def stripC (l : List Char) : List Char :=
  ((l.dropWhile isSpaceCh).reverse.dropWhile isSpaceCh).reverse

/-- Model of `re.sub` with the pattern consisting of one-or-more space
characters, replaced by a single space: every maximal run of spaces becomes
one space (equivalently, a space that is immediately followed by another
space is dropped). -/
def collapseSpaces : List Char → List Char
  | [] => []
  | [c] => [c]
  | c :: d :: rest =>
    if c == ' ' && d == ' ' then collapseSpaces (d :: rest)
    else c :: collapseSpaces (d :: rest)

/-- Membership in the punctuation class used by `_normalize_text`. -/
def isPunctCh (c : Char) : Bool :=
  c == ',' || c == '.' || c == '!' || c == '?' || c == ';' || c == ':'

/-- Scanner for the first substitution of `_normalize_text`, which deletes
any maximal run of spaces immediately preceding a punctuation character.
`pending` holds the run of spaces read but not yet emitted; it is dropped
when the next character is punctuation and flushed otherwise. -/
def rsbpAux (pending : List Char) : List Char → List Char
  | [] => pending
  | c :: rest =>
    if c == ' ' then rsbpAux (pending ++ [c]) rest
    else if isPunctCh c && !pending.isEmpty then c :: rsbpAux [] rest
    else pending ++ c :: rsbpAux [] rest

/-- Model of `re.sub` deleting any maximal run of spaces that immediately
precedes a punctuation character (first substitution of
`_normalize_text`). -/
def removeSpaceBeforePunct (l : List Char) : List Char := rsbpAux [] l

/-- Model of `re.sub` inserting a single space after a punctuation character
that is immediately followed by a non-whitespace character (second
substitution of `_normalize_text`); matches are non-overlapping, so after a
replacement scanning resumes past the consumed pair. -/
def insertSpaceAfterPunct : List Char → List Char
  | [] => []
  | [c] => [c]
  | c :: d :: rest =>
    if isPunctCh c && !(isSpaceCh d) then c :: ' ' :: d :: insertSpaceAfterPunct rest
    else c :: insertSpaceAfterPunct (d :: rest)

/-- Character map of the quote-standardisation substitution of
`_normalize_text`: the character class of its pattern consists of the
double-quote character and the backtick (code 96), each replaced by a
double quote. -/
def standardizeQuoteCh (c : Char) : Char :=
  if c == '"' || c == Char.ofNat 96 then '"' else c

/-- Scanner for Python `str.split()` with no argument; `acc` holds the
reversed characters of the word currently being read. -/
def splitWsAux (acc : List Char) : List Char → List (List Char)
  | [] => if acc.isEmpty then [] else [acc.reverse]
  | c :: rest =>
    if isSpaceCh c then
      if acc.isEmpty then splitWsAux [] rest
      else acc.reverse :: splitWsAux [] rest
    else splitWsAux (c :: acc) rest

/-- Model of Python `str.split()` with no argument: maximal runs of
non-whitespace characters, outer whitespace discarded. -/
def splitWs (l : List Char) : List (List Char) := splitWsAux [] l

/-- Lexicographic comparison of character lists by code point, the order
Python uses to compare strings. -/
def lexLe : List Char → List Char → Bool
  | [], _ => true
  | _ :: _, [] => false
  | a :: as, b :: bs =>
    if a.toNat < b.toNat then true
    else if b.toNat < a.toNat then false
    else lexLe as bs

/-- First-occurrence deduplication with an explicit set of already-seen
elements. -/
def dedupFirstAux {α : Type} [DecidableEq α] (seen : List α) : List α → List α
  | [] => []
  | a :: l =>
    if a ∈ seen then dedupFirstAux seen l
    else a :: dedupFirstAux (a :: seen) l

/-- First-occurrence deduplication, the order-preserving behaviour of
`dict.fromkeys` used by `_sort_lines`. -/
def dedupFirst {α : Type} [DecidableEq α] (l : List α) : List α := dedupFirstAux [] l

/-- Fixed-shape record of the keyword options accepted by the operations,
with one field per `kwargs.get` key appearing in the source. -/
structure Kwargs where
  strip_lines : Bool
  normalize_spaces : Bool
  remove_empty_lines : Bool
  fix_punctuation : Bool
  standardize_quotes : Bool
  keep_periods : Bool
  keep_apostrophes : Bool
  keep_years : Bool
  by_words : Bool
  by_lines : Bool
  reverse : Bool
  ignore_case : Bool
  remove_duplicates : Bool
  start : Int
  width : Option Nat
  separator : String

/-- Default value of every option, as given by the `kwargs.get` defaults in
the source. -/
def defaultKwargs : Kwargs :=
  { strip_lines := true
    normalize_spaces := true
    remove_empty_lines := false
    fix_punctuation := true
    standardize_quotes := true
    keep_periods := false
    keep_apostrophes := false
    keep_years := false
    by_words := false
    by_lines := false
    reverse := false
    ignore_case := false
    remove_duplicates := false
    start := 1
    width := none
    separator := ": " }

/-- Model of `TextTransformer._to_upper` (ASCII case map). -/
def to_upper (text : String) (_k : Kwargs) : String := ⟨text.data.map Char.toUpper⟩

/-- Model of `TextTransformer._to_lower` (ASCII case map). -/
def to_lower (text : String) (_k : Kwargs) : String := ⟨text.data.map Char.toLower⟩

/-- Helper for `str.title`: a cased character following a non-cased one is
uppercased, any other cased character is lowercased (ASCII fragment). -/
def titleAux : Bool → List Char → List Char
  | _, [] => []
  | prevCased, c :: rest =>
    if c.isAlpha then
      (if prevCased then c.toLower else c.toUpper) :: titleAux true rest
    else c :: titleAux false rest

/-- Model of `TextTransformer._to_title`, Python `str.title`. -/
def to_title (text : String) (_k : Kwargs) : String := ⟨titleAux false text.data⟩

/-- Model of `TextTransformer._to_sentence_case`: empty text is returned
unchanged, otherwise the first character is uppercased and the remainder
lowercased. -/
def to_sentence_case (text : String) (_k : Kwargs) : String :=
  match text.data with
  | [] => text
  | c :: rest => ⟨c.toUpper :: rest.map Char.toLower⟩

/-- Char-level body of `TextTransformer._clean_whitespace`. -/
def cleanC (k : Kwargs) (l : List Char) : List Char :=
  let r := l
  let r := if k.strip_lines then joinLines ((splitLines r).map rstripC) else r
  let r := if k.normalize_spaces then collapseSpaces r else r
  let r :=
    if k.remove_empty_lines then
      joinLines ((splitLines r).filter (fun ln => !(stripC ln).isEmpty))
    else r
  stripC r

/-- Model of `TextTransformer._clean_whitespace`. -/
def clean_whitespace (text : String) (k : Kwargs) : String := ⟨cleanC k text.data⟩

/-- Char-level body of `TextTransformer._normalize_text`. -/
def normalizeC (k : Kwargs) (l : List Char) : List Char :=
  let r := cleanC k l
  let r :=
    if k.fix_punctuation then insertSpaceAfterPunct (removeSpaceBeforePunct r)
    else r
  if k.standardize_quotes then r.map standardizeQuoteCh else r

/-- Model of `TextTransformer._normalize_text`. -/
def normalize_text (text : String) (k : Kwargs) : String := ⟨normalizeC k text.data⟩

/-- Character filter of `TextTransformer._remove_punctuation`: the pattern
deletes every character that is neither a word character nor whitespace,
except the optionally kept period and apostrophe (code 39). -/
def keepPunctCh (k : Kwargs) (c : Char) : Bool :=
  isWordCh c || isSpaceCh c || (k.keep_periods && c == '.') ||
    (k.keep_apostrophes && c == Char.ofNat 39)

/-- Model of `TextTransformer._remove_punctuation`. -/
def remove_punctuation (text : String) (k : Kwargs) : String :=
  ⟨text.data.filter (keepPunctCh k)⟩

/-- Model of `TextTransformer._reverse_text`: line order when
`by_lines`, word order when `by_words`, character order otherwise. -/
def reverse_text (text : String) (k : Kwargs) : String :=
  if k.by_lines then ⟨joinLines (splitLines text.data).reverse⟩
  else if k.by_words then ⟨List.intercalate [' '] (splitWs text.data).reverse⟩
  else ⟨text.data.reverse⟩

/-- Sort key selected by `_sort_lines`: the ASCII-lowercased line when
`ignore_case`, the line itself otherwise. -/
def sortKey (ignoreCase : Bool) (l : List Char) : List Char :=
  if ignoreCase then l.map Char.toLower else l

/-- Boolean comparison handed to the stable sort by `_sort_lines`:
ascending on keys normally, descending (still stable) when `reverse`. -/
def sortLe (k : Kwargs) (a b : List Char) : Bool :=
  if k.reverse then lexLe (sortKey k.ignore_case b) (sortKey k.ignore_case a)
  else lexLe (sortKey k.ignore_case a) (sortKey k.ignore_case b)

/-- Line list produced by `TextTransformer._sort_lines` before joining:
split, optionally deduplicate first occurrences, stable sort.  Python
`list.sort` is a stable sort; with respect to a total transitive comparison
a stable sort is uniquely determined, so it is modelled by insertion sort,
which is stable. -/
def sortLinesList (text : String) (k : Kwargs) : List (List Char) :=
  let lines := splitLines text.data
  let lines := if k.remove_duplicates then dedupFirst lines else lines
  lines.insertionSort (fun a b => sortLe k a b)

/-- Model of `TextTransformer._sort_lines`. -/
def sort_lines (text : String) (k : Kwargs) : String :=
  ⟨joinLines (sortLinesList text k)⟩

/-- Model of `TextTransformer._remove_empty_lines`: keep exactly the lines
with some non-whitespace character. -/
def remove_empty_lines (text : String) (_k : Kwargs) : String :=
  ⟨joinLines ((splitLines text.data).filter (fun ln => !(stripC ln).isEmpty))⟩

/-- Model of Python `str.rjust`: left-pad with spaces up to the width, never
truncating. -/
def rjustC (s : List Char) (w : Nat) : List Char :=
  List.replicate (w - s.length) ' ' ++ s

/-- Numbered-line builder of `_add_line_numbers`: the counter starts at
`start` and increases by one per line. -/
def numberLinesAux (w : Nat) (sep : List Char) : Int → List (List Char) → List (List Char)
  | _, [] => []
  | i, ln :: rest => (rjustC (toString i).data w ++ sep ++ ln) :: numberLinesAux w sep (i + 1) rest

/-- Line list produced by `TextTransformer._add_line_numbers` before joining. -/
def addLineNumbersList (text : String) (k : Kwargs) : List (List Char) :=
  let lines := splitLines text.data
  let w :=
    match k.width with
    | some w => w
    | none => (toString ((lines.length : Int) + k.start - 1)).data.length
  numberLinesAux w k.separator.data k.start lines

/-- Model of `TextTransformer._add_line_numbers`. -/
def add_line_numbers (text : String) (k : Kwargs) : String :=
  ⟨joinLines (addLineNumbersList text k)⟩

/-- Model of the regex class `\d` (ASCII digits). -/
def isDigitCh (c : Char) : Bool := c.isDigit

/-- Matching semantics shared by the two `keep_years` substitutions of
`_remove_numbers`.  Each pattern matches a maximal run of digits whose
length satisfies a condition, subject to the word boundaries and digit
lookarounds of the pattern: the character before the run (when present)
and the character after it (when present) must not be word characters.
Matched runs are deleted; the scan continues on the original text, so the
context seen by later runs is the original one.
The scanner carries `prevOk` (whether the character just before the current
run admits a match, i.e. is absent or not a word character) and `run`, the
digits of the run read so far. -/
def stripRunsAux (cond : Nat → Bool) (prevOk : Bool) (run : List Char) : List Char → List Char
  | [] => if run.isEmpty then [] else if cond run.length && prevOk then [] else run
  | c :: rest =>
    if isDigitCh c then stripRunsAux cond prevOk (run ++ [c]) rest
    else
      let keep :=
        if run.isEmpty then []
        else if cond run.length && prevOk && !(isWordCh c) then []
        else run
      keep ++ c :: stripRunsAux cond (!(isWordCh c)) [] rest

/-- One full substitution pass over a text. -/
def stripRuns (cond : Nat → Bool) (l : List Char) : List Char :=
  stripRunsAux cond true [] l

/-- Length condition of the first `keep_years` pass: runs of one to three
digits. -/
def shortRunCond (n : Nat) : Bool := 1 ≤ n && n ≤ 3

/-- Length condition of the second `keep_years` pass: runs of five or more
digits. -/
def longRunCond (n : Nat) : Bool := 5 ≤ n

/-- Model of `TextTransformer._remove_numbers`: with `keep_years`, two
sequential passes (strip short runs, then strip long runs on the result);
otherwise delete every digit.  Either way multiple spaces are then
collapsed and the ends trimmed. -/
def remove_numbers (text : String) (k : Kwargs) : String :=
  let r :=
    if k.keep_years then stripRuns longRunCond (stripRuns shortRunCond text.data)
    else text.data.filter (fun c => !(isDigitCh c))
  ⟨stripC (collapseSpaces r)⟩

/-- Errors raised by the pipeline: the `ValueError` of `transform_text` for
an unregistered operation name (carrying the name and the list of valid
names used to build the message), and the `FileNotFoundError` of
`read_text_file`. -/
inductive TError where
  | unknownOperation (op : String) (available : List String)
  | fileNotFound (path : String)
deriving DecidableEq

deriving instance DecidableEq for Except

/-- Message text attached to each error, as formatted by the source
(`f-string` in `transform_text`, `read_text_file`). -/
def errorMessage : TError → String
  | TError.unknownOperation op available =>
    let q := (Char.ofNat 39).toString
    "Unknown operation " ++ q ++ op ++ q ++ ". Available: " ++
      String.intercalate ", " available
  | TError.fileNotFound p => "File not found: " ++ p

/-- Operation registry of `transform_text`, in source order. -/
def operations : List (String × (String → Kwargs → String)) :=
  [("upper", to_upper),
   ("lower", to_lower),
   ("title", to_title),
   ("sentence", to_sentence_case),
   ("clean", clean_whitespace),
   ("normalize", normalize_text),
   ("remove_punctuation", remove_punctuation),
   ("remove_numbers", remove_numbers),
   ("reverse", reverse_text),
   ("sort_lines", sort_lines),
   ("remove_empty_lines", remove_empty_lines),
   ("add_line_numbers", add_line_numbers)]

/-- Keys of the registry, the `operations.keys()` listed in the error
message. -/
def opNames : List String := operations.map Prod.fst

/-- Model of `TextTransformer.transform_text`: look the operation up in the
registry and apply it, failing with the enumerating error otherwise. -/
def transform_text (text operation : String) (k : Kwargs) : Except TError String :=
  match operations.lookup operation with
  | some f => Except.ok (f text k)
  | none => Except.error (TError.unknownOperation operation opNames)

/-- A filesystem write, recorded in the order the engine performs it. -/
inductive FsOp where
  | write (path content : String)
deriving DecidableEq

/-- Filesystems are modelled as maps from (normalised) path strings to file
contents. -/
def Fs : Type := String → Option String

/-- Effect of one write on a filesystem. -/
def applyFsOp (fs : Fs) : FsOp → Fs
  | FsOp.write p c => fun q => if q = p then some c else fs q

/-- Effect of a write trace, first write applied first. -/
def applyWrites (fs : Fs) (ops : List FsOp) : Fs := ops.foldl applyFsOp fs

/-- Name of the final path component (the part after the last slash). -/
def pathNameChars (p : List Char) : List Char :=
  (p.reverse.takeWhile (fun c => !(c == '/'))).reverse

/-- Directory part complementing `pathNameChars`. -/
def pathDirChars (p : List Char) : List Char :=
  (p.reverse.dropWhile (fun c => !(c == '/'))).reverse

/-- Length of the `Path.suffix` of a name: the part from the last dot, when
that dot is neither the first nor the last character of the name, and zero
otherwise (the stdlib rule used by `create_backup`). -/
def extLenOf (name : List Char) : Nat :=
  let t := name.reverse.takeWhile (fun c => !(c == '.'))
  if t.length = name.length then 0
  else if t.length = 0 then 0
  else if t.length + 1 = name.length then 0
  else t.length + 1

/-- Model of `Path.with_suffix` for well-formed suffixes: replace the
extension of the final component (or append when there is none) by `s`;
the stdlib validation of malformed suffix arguments is elided. -/
def withSuffixChars (p s : List Char) : List Char :=
  let name := pathNameChars p
  let e := extLenOf name
  pathDirChars p ++ name.take (name.length - e) ++ s

/-- Backup path computed by `create_backup`:
`path.with_suffix(path.suffix + suffix)`. -/
def backupPath (p suffix : String) : String :=
  ⟨withSuffixChars p.data ((pathNameChars p.data).drop
    ((pathNameChars p.data).length - extLenOf (pathNameChars p.data)) ++ suffix.data)⟩

/-- Model of `create_backup` from `utils.py`: returns the backup path and
the writes performed — a single copy of the current content when the file
exists, none otherwise. -/
def create_backup (fs : Fs) (file_path : String) (suffix : String) : String × List FsOp :=
  let bp := backupPath file_path suffix
  match fs file_path with
  | some content => (bp, [FsOp.write bp content])
  | none => (bp, [])

/-- Model of `TextTransformer.transform_file`: read the source, dispatch the
operation, resolve the destination, create a backup when overwriting the
original with `preserve_original` set, then write the result.  The value is
the ordered trace of filesystem writes together with the outcome; a raised
error aborts the call with the writes performed so far (none). -/
def transform_file (fs : Fs) (preserve_original : Bool) (backup_suffix : String)
    (file_path operation : String) (output_path : Option String) (k : Kwargs) :
    List FsOp × Except TError String :=
  match fs file_path with
  | none => ([], Except.error (TError.fileNotFound file_path))
  | some text =>
    match transform_text text operation k with
    | Except.error e => ([], Except.error e)
    | Except.ok transformed =>
      let outPath := output_path.getD file_path
      let backupWrites :=
        if preserve_original && (outPath == file_path) then
          (create_backup fs file_path backup_suffix).2
        else []
      (backupWrites ++ [FsOp.write outPath transformed], Except.ok outPath)

/-- Sample filesystem used by the concrete witnesses: a single file
`dir/sample.txt` with content `abc`. -/
def sampleFs : Fs := fun p => if p = "dir/sample.txt" then some "abc" else none

/-- Strict version of the key comparison of `_sort_lines`: strictly smaller
key. -/
def sortKeyLt (ic : Bool) (a b : List Char) : Bool :=
  lexLe (sortKey ic a) (sortKey ic b) && !(lexLe (sortKey ic b) (sortKey ic a))

/-- Strictly-increasing relation asserted between consecutive output lines
of `_sort_lines` (strictly-decreasing when `reverse`). -/
def sortStrict (k : Kwargs) (a b : List Char) : Bool :=
  if k.reverse then sortKeyLt k.ignore_case b a else sortKeyLt k.ignore_case a b

/-- Option map selecting case-insensitive sorting with duplicate removal. -/
def icDupKwargs : Kwargs :=
  { defaultKwargs with ignore_case := true, remove_duplicates := true }

/-- Option map selecting duplicate removal only. -/
def dupKwargs : Kwargs := { defaultKwargs with remove_duplicates := true }

/-- Option map selecting the `keep_years` behaviour of `remove_numbers`. -/
def keepYearsKwargs : Kwargs := { defaultKwargs with keep_years := true }

/-- Lengths of the maximal digit runs of a text, in order; `cur` is the
length of the run currently being read. -/
def digitRunLensAux (cur : Nat) : List Char → List Nat
  | [] => if cur = 0 then [] else [cur]
  | c :: rest =>
    if isDigitCh c then digitRunLensAux (cur + 1) rest
    else if cur = 0 then digitRunLensAux 0 rest
    else cur :: digitRunLensAux 0 rest

/-- Lengths of the maximal digit runs of a text, in order. -/
def digitRunLens (l : List Char) : List Nat := digitRunLensAux 0 l

/-- Maximal digit runs of a text with their match contexts: for each run,
its length, whether the character before it admits a match (absent or
non-word), and likewise for the character after it.  `prevOk` and `cur`
carry the scanning state as in `stripRunsAux`. -/
def runCtxAux (prevOk : Bool) (cur : Nat) : List Char → List (Nat × Bool × Bool)
  | [] => if cur = 0 then [] else [(cur, prevOk, true)]
  | c :: rest =>
    if isDigitCh c then runCtxAux prevOk (cur + 1) rest
    else
      (if cur = 0 then [] else [(cur, prevOk, !(isWordCh c))]) ++
        runCtxAux (!(isWordCh c)) 0 rest

/-- Maximal digit runs of a text with their match contexts. -/
def runCtx (l : List Char) : List (Nat × Bool × Bool) := runCtxAux true 0 l

/-- Auxiliary: a key that is absent from an association list is not found by
`lookup`. -/
theorem lookup_eq_none_of_not_mem {β : Type} :
    ∀ (l : List (String × β)) (a : String), a ∉ l.map Prod.fst → l.lookup a = none
  | [], _, _ => rfl
  | (kk, _b) :: l, a, h => by
    simp only [List.map_cons, List.mem_cons, not_or] at h
    have hbeq : (a == kk) = false := beq_eq_false_iff_ne.mpr h.1
    simp only [List.lookup, hbeq]
    exact lookup_eq_none_of_not_mem l a h.2

/-- C1: for every text and options map, dispatching an operation name that is
not among the 12 registered names fails with the unknown-operation error;
the registry holds exactly the 12 names, and the error message enumerates
every one of them (each valid name occurs in the message, which lists them
all after `Available:`). -/
theorem transform_text_unknown_operation (text op : String) (k : Kwargs)
    (h : op ∉ opNames) :
    transform_text text op k = Except.error (TError.unknownOperation op opNames) ∧
    opNames = ["upper", "lower", "title", "sentence", "clean", "normalize",
      "remove_punctuation", "remove_numbers", "reverse", "sort_lines",
      "remove_empty_lines", "add_line_numbers"] ∧
    opNames.length = 12 ∧
    errorMessage (TError.unknownOperation op opNames) =
      "Unknown operation " ++ (Char.ofNat 39).toString ++ op ++
        (Char.ofNat 39).toString ++ ". Available: " ++
        "upper, lower, title, sentence, clean, normalize, remove_punctuation, remove_numbers, reverse, sort_lines, remove_empty_lines, add_line_numbers" ∧
    ∀ n ∈ opNames,
      n.data.IsInfix ("upper, lower, title, sentence, clean, normalize, remove_punctuation, remove_numbers, reverse, sort_lines, remove_empty_lines, add_line_numbers").data := by
  refine ⟨?_, by decide, by decide, ?_, ?_⟩
  · unfold transform_text
    rw [lookup_eq_none_of_not_mem operations op h]
  · show "Unknown operation " ++ (Char.ofNat 39).toString ++ op ++
      (Char.ofNat 39).toString ++ ". Available: " ++ String.intercalate ", " opNames = _
    rw [show String.intercalate ", " opNames =
      "upper, lower, title, sentence, clean, normalize, remove_punctuation, remove_numbers, reverse, sort_lines, remove_empty_lines, add_line_numbers" from by decide]
  · set_option maxRecDepth 8192 in decide

/-- Witness for C1 at the concrete unregistered name `does_not_exist`. -/
theorem transform_text_unknown_operation_witness :
    transform_text "some text" "does_not_exist" defaultKwargs =
      Except.error (TError.unknownOperation "does_not_exist" opNames) ∧
    opNames.length = 12 :=
  have h := transform_text_unknown_operation "some text" "does_not_exist"
    defaultKwargs (by decide)
  ⟨h.1, h.2.2.1⟩

/-- C8: dispatching the empty string succeeds for every one of the 12
registered operation names with default options, and the `sentence`
operation returns the empty string on empty input. -/
theorem transform_text_empty_input_ok (op : String) (h : op ∈ opNames) :
    (∃ r, transform_text "" op defaultKwargs = Except.ok r) ∧
    transform_text "" "sentence" defaultKwargs = Except.ok "" := by
  refine ⟨?_, by decide⟩
  simp only [opNames, operations, List.map_cons, List.map_nil, List.mem_cons,
    List.not_mem_nil, or_false] at h
  rcases h with h|h|h|h|h|h|h|h|h|h|h|h <;> subst h <;> exact ⟨_, rfl⟩

/-- Witness for C8 at the concrete operation name `sentence`. -/
theorem transform_text_empty_input_ok_witness :
    (∃ r, transform_text "" "sentence" defaultKwargs = Except.ok r) ∧
    transform_text "" "sentence" defaultKwargs = Except.ok "" :=
  transform_text_empty_input_ok "sentence" (by decide)

/-- Auxiliary: the directory part and the name part recombine to the whole
path. -/
theorem dir_append_name (l : List Char) : pathDirChars l ++ pathNameChars l = l := by
  unfold pathDirChars pathNameChars
  rw [← List.reverse_append, List.takeWhile_append_dropWhile, List.reverse_reverse]

/-- Auxiliary: the backup path of `create_backup` is the source path with
the suffix appended after the existing extension, i.e. plain string
concatenation `path ++ suffix`. -/
theorem backupPath_eq (p s : String) : backupPath p s = p ++ s := by
  apply String.ext
  show pathDirChars p.data ++
      (pathNameChars p.data).take ((pathNameChars p.data).length - extLenOf (pathNameChars p.data)) ++
      ((pathNameChars p.data).drop ((pathNameChars p.data).length - extLenOf (pathNameChars p.data)) ++
        s.data) = (p ++ s).data
  rw [List.append_assoc, ← List.append_assoc ((pathNameChars p.data).take _),
    List.take_append_drop, ← List.append_assoc, dir_append_name]
  rfl

/-- C2: for a `transform_file` call with backup enabled whose resolved
destination equals the source and whose source exists, the write trace is
either empty (nothing is overwritten at all, the dispatch having failed) or
consists of exactly the backup write at `sourcePath ++ backupSuffix`
carrying the pre-transform content, followed by the destination write: the
backup precedes any overwrite of the destination.  When the source file
does not exist, the call fails with no write of any kind, so no backup is
written. -/
theorem transform_file_backup_policy (fs : Fs) (bsuf src op : String)
    (out : Option String) (k : Kwargs) (c : String)
    (hsrc : fs src = some c)
    (hdest : out = none ∨ out = some src) :
    ((transform_file fs true bsuf src op out k).1 = [] ∨
      ∃ t, transform_text c op k = Except.ok t ∧
        (transform_file fs true bsuf src op out k).1 =
          [FsOp.write (src ++ bsuf) c, FsOp.write src t]) ∧
    (∀ (fs2 : Fs) (pres : Bool) (b2 op2 : String) (o2 : Option String) (k2 : Kwargs),
      fs2 src = none →
      transform_file fs2 pres b2 src op2 o2 k2 =
        ([], Except.error (TError.fileNotFound src))) := by
  constructor
  · cases hop : transform_text c op k with
    | error e => exact Or.inl (by simp [transform_file, hsrc, hop])
    | ok t =>
      refine Or.inr ⟨t, rfl, ?_⟩
      rcases hdest with h|h <;> subst h <;>
        simp [transform_file, hsrc, hop, create_backup, backupPath_eq, Option.getD]
  · intro fs2 pres b2 op2 o2 k2 h2
    simp [transform_file, h2]

/-- Witness for C2 on the sample filesystem with operation `upper`. -/
theorem transform_file_backup_policy_witness :
    ((transform_file sampleFs true ".bak" "dir/sample.txt" "upper" none defaultKwargs).1 = [] ∨
      ∃ t, transform_text "abc" "upper" defaultKwargs = Except.ok t ∧
        (transform_file sampleFs true ".bak" "dir/sample.txt" "upper" none defaultKwargs).1 =
          [FsOp.write ("dir/sample.txt" ++ ".bak") "abc",
           FsOp.write "dir/sample.txt" t]) ∧
    (∀ (fs2 : Fs) (pres : Bool) (b2 op2 : String) (o2 : Option String) (k2 : Kwargs),
      fs2 "dir/sample.txt" = none →
      transform_file fs2 pres b2 "dir/sample.txt" op2 o2 k2 =
        ([], Except.error (TError.fileNotFound "dir/sample.txt"))) :=
  transform_file_backup_policy sampleFs ".bak" "dir/sample.txt" "upper" none
    defaultKwargs "abc" (by decide) (Or.inl rfl)

/-- C3: when `output_path` is absent or equal to the source path the engine
works in place — the call behaves as: read, dispatch, then (on success) the
backup policy's writes when `preserve_original` is set followed by the
overwrite of the source, returning the source path.  Otherwise (an output
path different from the source) it is a copy-transform: no write in the
trace targets the source, whose content is unchanged after applying the
trace. -/
theorem transform_file_inplace_vs_copy (fs : Fs) (pres : Bool) (bsuf src op : String)
    (k : Kwargs) :
    (∀ out : Option String, out = none ∨ out = some src →
      transform_file fs pres bsuf src op out k =
        match fs src with
        | none => ([], Except.error (TError.fileNotFound src))
        | some c =>
          match transform_text c op k with
          | Except.error e => ([], Except.error e)
          | Except.ok t =>
            ((if pres then (create_backup fs src bsuf).2 else []) ++ [FsOp.write src t],
              Except.ok src)) ∧
    (∀ o : String, o ≠ src →
      (∀ cnt, FsOp.write src cnt ∉ (transform_file fs pres bsuf src op (some o) k).1) ∧
      applyWrites fs (transform_file fs pres bsuf src op (some o) k).1 src = fs src) := by
  constructor
  · intro out hdest
    cases hsrc : fs src with
    | none => rcases hdest with h|h <;> subst h <;> simp [transform_file, hsrc]
    | some c =>
      cases hop : transform_text c op k with
      | error e => rcases hdest with h|h <;> subst h <;> simp [transform_file, hsrc, hop]
      | ok t =>
        rcases hdest with h|h <;> subst h <;>
          simp [transform_file, hsrc, hop, Option.getD]
  · intro o ho
    have hbeq : (o == src) = false := beq_eq_false_iff_ne.mpr ho
    have hne : src ≠ o := Ne.symm ho
    cases hsrc : fs src with
    | none =>
      refine ⟨fun cnt => ?_, ?_⟩ <;> simp [transform_file, hsrc, applyWrites]
    | some c =>
      cases hop : transform_text c op k with
      | error e =>
        refine ⟨fun cnt => ?_, ?_⟩ <;> simp [transform_file, hsrc, hop, applyWrites]
      | ok t =>
        constructor
        · intro cnt
          simp [transform_file, hsrc, hop, Option.getD, hbeq, FsOp.write.injEq]
          intro heq
          exact absurd heq hne
        · simp [transform_file, hsrc, hop, Option.getD, hbeq, applyWrites,
            applyFsOp, hne]

/-- Witness for C3: in-place call and copy-transform call on the sample
filesystem. -/
theorem transform_file_inplace_vs_copy_witness :
    (transform_file sampleFs true ".bak" "dir/sample.txt" "upper" none defaultKwargs =
      match sampleFs "dir/sample.txt" with
      | none => ([], Except.error (TError.fileNotFound "dir/sample.txt"))
      | some c =>
        match transform_text c "upper" defaultKwargs with
        | Except.error e => ([], Except.error e)
        | Except.ok t =>
          ((if true then (create_backup sampleFs "dir/sample.txt" ".bak").2 else []) ++
            [FsOp.write "dir/sample.txt" t], Except.ok "dir/sample.txt")) ∧
    applyWrites sampleFs
      (transform_file sampleFs true ".bak" "dir/sample.txt" "upper"
        (some "other/out.txt") defaultKwargs).1 "dir/sample.txt" =
      sampleFs "dir/sample.txt" :=
  ⟨(transform_file_inplace_vs_copy sampleFs true ".bak" "dir/sample.txt" "upper"
      defaultKwargs).1 none (Or.inl rfl),
   ((transform_file_inplace_vs_copy sampleFs true ".bak" "dir/sample.txt" "upper"
      defaultKwargs).2 "other/out.txt" (by decide)).2⟩

/-- C4: a `transform_file` call whose operation name is not registered
performs no filesystem write at all: the trace is empty, the call reports
an error, and every path — the source in particular — holds exactly its
previous content after the call. -/
theorem transform_file_unknown_op_no_writes (fs : Fs) (pres : Bool)
    (bsuf src op : String) (out : Option String) (k : Kwargs)
    (h : op ∉ opNames) :
    (transform_file fs pres bsuf src op out k).1 = [] ∧
    (∃ e, (transform_file fs pres bsuf src op out k).2 = Except.error e) ∧
    (∀ q, applyWrites fs (transform_file fs pres bsuf src op out k).1 q = fs q) := by
  have hop : ∀ text k2, transform_text text op k2 =
      Except.error (TError.unknownOperation op opNames) := by
    intro text k2
    unfold transform_text
    rw [lookup_eq_none_of_not_mem operations op h]
  cases hsrc : fs src with
  | none =>
    refine ⟨?_, ⟨TError.fileNotFound src, ?_⟩, fun q => ?_⟩ <;>
      simp [transform_file, hsrc, applyWrites]
  | some c =>
    refine ⟨?_, ⟨TError.unknownOperation op opNames, ?_⟩, fun q => ?_⟩ <;>
      simp [transform_file, hsrc, hop, applyWrites]

/-- Witness for C4 at the concrete unregistered name `bogus`. -/
theorem transform_file_unknown_op_no_writes_witness :
    (transform_file sampleFs true ".bak" "dir/sample.txt" "bogus" none defaultKwargs).1 = [] ∧
    (∃ e, (transform_file sampleFs true ".bak" "dir/sample.txt" "bogus" none
      defaultKwargs).2 = Except.error e) ∧
    (∀ q, applyWrites sampleFs
      (transform_file sampleFs true ".bak" "dir/sample.txt" "bogus" none defaultKwargs).1 q =
      sampleFs q) :=
  transform_file_unknown_op_no_writes sampleFs true ".bak" "dir/sample.txt" "bogus"
    none defaultKwargs (by decide)

/-- C9: dispatching `reverse` twice with default options (character mode)
returns the original text. -/
theorem reverse_dispatch_involutive (T : String) :
    (transform_text T "reverse" defaultKwargs).bind
      (fun r => transform_text r "reverse" defaultKwargs) = Except.ok T := by
  have h1 : transform_text T "reverse" defaultKwargs = Except.ok ⟨T.data.reverse⟩ := rfl
  rw [h1]
  show transform_text ⟨T.data.reverse⟩ "reverse" defaultKwargs = Except.ok T
  have h2 : transform_text ⟨T.data.reverse⟩ "reverse" defaultKwargs =
      Except.ok ⟨T.data.reverse.reverse⟩ := rfl
  rw [h2, List.reverse_reverse]

/-- Auxiliary: numbering preserves the number of lines. -/
theorem numberLinesAux_length (w : Nat) (sep : List Char) :
    ∀ (i : Int) (ls : List (List Char)), (numberLinesAux w sep i ls).length = ls.length
  | _, [] => rfl
  | i, _ln :: rest => by
    simp [numberLinesAux, numberLinesAux_length w sep (i + 1) rest]

/-- Auxiliary: the line at index `n` of the numbered list carries the number
`i + n` followed by the separator and the original line. -/
theorem numberLinesAux_getD (w : Nat) (sep : List Char) :
    ∀ (ls : List (List Char)) (i : Int) (n : Nat), n < ls.length →
      (numberLinesAux w sep i ls).getD n [] =
        rjustC (toString (i + n)).data w ++ sep ++ ls.getD n []
  | [], _, n, h => absurd h (by simp)
  | ln :: rest, i, 0, _ => by simp [numberLinesAux]
  | _ln :: rest, i, n + 1, h => by
    have h2 : n < rest.length := by simpa using h
    have ih := numberLinesAux_getD w sep rest (i + 1) n h2
    have harith : i + 1 + (n : Int) = i + ((n + 1 : Nat) : Int) := by push_cast; ring
    rw [harith] at ih
    simpa [numberLinesAux] using ih

/-- C7: `add_line_numbers` produces exactly as many lines as the input has;
the line at index `n` is the input line prefixed by the number
`start + n` (so the numbers increase by one per line from `start`),
right-justified to the field width — the digit count of
`start + lineCount - 1` unless overridden — followed by the separator. -/
theorem add_line_numbers_spec (text : String) (k : Kwargs) :
    (addLineNumbersList text k).length = (splitLines text.data).length ∧
    add_line_numbers text k = ⟨joinLines (addLineNumbersList text k)⟩ ∧
    ∀ n : Nat, n < (splitLines text.data).length →
      (addLineNumbersList text k).getD n [] =
        rjustC (toString (k.start + n)).data
          (match k.width with
           | some w => w
           | none =>
             (toString (((splitLines text.data).length : Int) + k.start - 1)).data.length) ++
        k.separator.data ++ (splitLines text.data).getD n [] := by
  refine ⟨?_, rfl, ?_⟩
  · exact numberLinesAux_length _ _ _ _
  · intro n hn
    exact numberLinesAux_getD _ _ _ _ n hn

/-- Witness for C7 on the two-line text `a`, `b` at index 0. -/
theorem add_line_numbers_spec_witness :
    (addLineNumbersList "a\nb" defaultKwargs).getD 0 [] =
      rjustC (toString (defaultKwargs.start + (0 : Nat))).data
        (match defaultKwargs.width with
         | some w => w
         | none =>
           (toString (((splitLines ("a\nb" : String).data).length : Int) +
             defaultKwargs.start - 1)).data.length) ++
      defaultKwargs.separator.data ++ (splitLines ("a\nb" : String).data).getD 0 [] :=
  (add_line_numbers_spec "a\nb" defaultKwargs).2.2 0 (by decide)

/-- C10: `add_line_numbers` on the empty string yields the single numbered
empty line `1: ` (the empty input counts as one empty line), never the
empty string. -/
theorem add_line_numbers_empty_input :
    transform_text "" "add_line_numbers" defaultKwargs = Except.ok "1: " ∧
    ("1: " : String) ≠ "" := by
  exact ⟨by decide, by decide⟩

/-- Auxiliary: the lexicographic comparison is total. -/
theorem lexLe_total : ∀ a b : List Char, lexLe a b = true ∨ lexLe b a = true
  | [], _ => Or.inl rfl
  | _ :: _, [] => Or.inr rfl
  | a :: as, b :: bs => by
    unfold lexLe
    rcases Nat.lt_trichotomy a.toNat b.toNat with h|h|h
    · left; simp [h]
    · have h1 : ¬ a.toNat < b.toNat := by omega
      have h2 : ¬ b.toNat < a.toNat := by omega
      simp only [h1, h2, if_false]
      exact lexLe_total as bs
    · right; simp [h]

/-- Auxiliary: the lexicographic comparison is transitive. -/
theorem lexLe_trans : ∀ a b c : List Char,
    lexLe a b = true → lexLe b c = true → lexLe a c = true
  | [], _, _, _, _ => rfl
  | _ :: _, [], _, h1, _ => by simp [lexLe] at h1
  | _ :: _, _ :: _, [], _, h2 => by simp [lexLe] at h2
  | a :: as, b :: bs, c :: cs, h1, h2 => by
    unfold lexLe at h1 h2 ⊢
    split_ifs at h1 h2 ⊢ <;>
      first
      | rfl
      | omega
      | (exact lexLe_trans as bs cs h1 h2)

/-- Auxiliary: the lexicographic comparison is antisymmetric. -/
theorem lexLe_antisymm : ∀ a b : List Char,
    lexLe a b = true → lexLe b a = true → a = b
  | [], [], _, _ => rfl
  | [], _ :: _, _, h2 => by simp [lexLe] at h2
  | _ :: _, [], h1, _ => by simp [lexLe] at h1
  | a :: as, b :: bs, h1, h2 => by
    unfold lexLe at h1 h2
    by_cases hab : a.toNat < b.toNat
    · have hba : ¬ b.toNat < a.toNat := by omega
      rw [if_neg hba, if_pos hab] at h2
      exact absurd h2 (by simp)
    · by_cases hba : b.toNat < a.toNat
      · rw [if_neg hab, if_pos hba] at h1
        exact absurd h1 (by simp)
      · rw [if_neg hab, if_neg hba] at h1
        rw [if_neg hba, if_neg hab] at h2
        have heq : a.toNat = b.toNat := by omega
        have hchar : a = b := Char.ext (UInt32.toNat.inj heq)
        rw [hchar, lexLe_antisymm as bs h1 h2]

/-- Auxiliary: the comparison handed to the sort by `_sort_lines` is total. -/
theorem sortLe_total (k : Kwargs) (a b : List Char) :
    sortLe k a b = true ∨ sortLe k b a = true := by
  unfold sortLe
  by_cases h : k.reverse <;> simp only [h, if_true, if_false, Bool.false_eq_true] <;>
    first
    | exact (lexLe_total (sortKey k.ignore_case b) (sortKey k.ignore_case a))
    | exact (lexLe_total (sortKey k.ignore_case a) (sortKey k.ignore_case b))

/-- Auxiliary: the comparison handed to the sort by `_sort_lines` is
transitive. -/
theorem sortLe_trans (k : Kwargs) (a b c : List Char)
    (h1 : sortLe k a b = true) (h2 : sortLe k b c = true) : sortLe k a c = true := by
  unfold sortLe at h1 h2 ⊢
  by_cases h : k.reverse <;> simp only [h, if_true, if_false, Bool.false_eq_true] at h1 h2 ⊢
  · exact lexLe_trans _ _ _ h2 h1
  · exact lexLe_trans _ _ _ h1 h2

/-- Auxiliary: full characterisation of the first-occurrence deduplication
scanner: its output has no duplicates, avoids the seen set, and holds
exactly the unseen elements of the input. -/
theorem dedupFirstAux_spec {α : Type} [DecidableEq α] :
    ∀ (l seen : List α),
      ((dedupFirstAux seen l).Nodup ∧ ∀ a ∈ dedupFirstAux seen l, a ∉ seen) ∧
      (∀ a, a ∈ dedupFirstAux seen l ↔ a ∈ l ∧ a ∉ seen)
  | [], seen => by simp [dedupFirstAux]
  | b :: l, seen => by
    by_cases hb : b ∈ seen
    · have ih := dedupFirstAux_spec l seen
      simp only [dedupFirstAux, if_pos hb]
      refine ⟨ih.1, fun a => ?_⟩
      rw [ih.2 a, List.mem_cons]
      constructor
      · rintro ⟨h1, h2⟩; exact ⟨Or.inr h1, h2⟩
      · rintro ⟨h1 | h1, h2⟩
        · exact absurd (h1 ▸ hb) h2
        · exact ⟨h1, h2⟩
    · have ih := dedupFirstAux_spec l (b :: seen)
      simp only [dedupFirstAux, if_neg hb]
      refine ⟨⟨?_, ?_⟩, ?_⟩
      · refine List.nodup_cons.mpr ⟨fun hmem => ?_, ih.1.1⟩
        exact (ih.1.2 b hmem) (List.mem_cons_self b seen)
      · intro a ha
        rcases List.mem_cons.mp ha with h|h
        · exact h ▸ hb
        · exact fun hs => (ih.1.2 a h) (List.mem_cons.mpr (Or.inr hs))
      · intro a
        simp only [List.mem_cons, ih.2 a, not_or]
        constructor
        · rintro (h | ⟨h1, h2⟩)
          · exact ⟨Or.inl h, h ▸ hb⟩
          · exact ⟨Or.inr h1, h2.2⟩
        · rintro ⟨h1 | h1, h2⟩
          · exact Or.inl h1
          · by_cases hab : a = b
            · exact Or.inl hab
            · exact Or.inr ⟨h1, hab, h2⟩

/-- Auxiliary: deduplication yields a duplicate-free list with the same
members as the input. -/
theorem dedupFirst_spec {α : Type} [DecidableEq α] (l : List α) :
    (dedupFirst l).Nodup ∧ ∀ a, a ∈ dedupFirst l ↔ a ∈ l := by
  have h := dedupFirstAux_spec l ([] : List α)
  unfold dedupFirst
  exact ⟨h.1.1, fun a => by rw [h.2 a]; simp⟩

/-- C5 counterexample: on the text `A`, `a` with `ignore_case` and
`remove_duplicates` set, the output lines `A`, `a` are both kept (they are
distinct lines) but their case-insensitive keys are equal, so the sequence
is not strictly increasing under the selected comparison: the claimed
conjunction fails at this input. -/
theorem sort_lines_dedup_counterexample :
    ¬ (List.Pairwise (fun a b => sortStrict icDupKwargs a b = true)
        (sortLinesList "A\na" icDupKwargs) ∧
      (sortLinesList "A\na" icDupKwargs).Nodup ∧
      (∀ s, s ∈ sortLinesList "A\na" icDupKwargs ↔
        s ∈ splitLines ("A\na" : String).data)) :=
  fun h => absurd h.1 (by decide)

/-- C5 (amended): with `remove_duplicates`, `_sort_lines` yields lines that
are non-decreasing under the selected comparison (non-increasing when
`reverse`), contain no repeated line, and form exactly the set of distinct
lines of the input; when `ignore_case` is off the sequence is moreover
strictly increasing (strictly decreasing when `reverse`).  With
`ignore_case` on, distinct lines may share a key, so only the weak ordering
holds in general. -/
theorem sort_lines_dedup_spec (text : String) (k : Kwargs)
    (hdup : k.remove_duplicates = true) :
    sort_lines text k = ⟨joinLines (sortLinesList text k)⟩ ∧
    List.Pairwise (fun a b => sortLe k a b = true) (sortLinesList text k) ∧
    (sortLinesList text k).Nodup ∧
    (∀ s, s ∈ sortLinesList text k ↔ s ∈ splitLines text.data) ∧
    (k.ignore_case = false →
      List.Pairwise (fun a b => sortStrict k a b = true) (sortLinesList text k)) := by
  haveI : IsTotal (List Char) (fun a b => sortLe k a b = true) :=
    ⟨fun a b => sortLe_total k a b⟩
  haveI : IsTrans (List Char) (fun a b => sortLe k a b = true) :=
    ⟨fun a b c => sortLe_trans k a b c⟩
  have hlist : sortLinesList text k =
      (dedupFirst (splitLines text.data)).insertionSort (fun a b => sortLe k a b) := by
    unfold sortLinesList
    rw [hdup]
    simp
  have hsorted : List.Pairwise (fun a b => sortLe k a b = true) (sortLinesList text k) := by
    rw [hlist]
    exact List.sorted_insertionSort (fun a b => sortLe k a b = true) _
  have hperm : (sortLinesList text k).Perm (dedupFirst (splitLines text.data)) := by
    rw [hlist]
    exact List.perm_insertionSort _ _
  have hdd := dedupFirst_spec (splitLines text.data)
  have hnodup : (sortLinesList text k).Nodup := hperm.nodup_iff.mpr hdd.1
  refine ⟨rfl, hsorted, hnodup, ?_, ?_⟩
  · intro s
    rw [hperm.mem_iff, hdd.2 s]
  · intro hic
    have hcomb := hsorted.and hnodup
    refine hcomb.imp ?_
    intro a b h
    obtain ⟨hle, hne⟩ := h
    have hkey : ∀ x : List Char, sortKey k.ignore_case x = x := by
      intro x; unfold sortKey; rw [hic]; simp
    unfold sortLe at hle
    unfold sortStrict sortKeyLt
    cases hrev : k.reverse
    · rw [hrev] at hle
      simp only [hkey] at hle ⊢
      simp only [Bool.false_eq_true, if_false] at hle ⊢
      have hba : lexLe b a = false := by
        cases hba : lexLe b a
        · rfl
        · exact absurd (lexLe_antisymm a b hle hba) hne
      rw [hle, hba]
      rfl
    · rw [hrev] at hle
      simp only [hkey] at hle ⊢
      simp only [if_true] at hle ⊢
      have hab : lexLe a b = false := by
        cases hab : lexLe a b
        · rfl
        · exact absurd (lexLe_antisymm a b hab hle) hne
      rw [hle, hab]
      rfl

/-- Witness for C5 on the text `b`, `a`, `b` with duplicates removed and
default comparison options. -/
theorem sort_lines_dedup_spec_witness :
    List.Pairwise (fun a b => sortLe dupKwargs a b = true)
      (sortLinesList "b\na\nb" dupKwargs) ∧
    (sortLinesList "b\na\nb" dupKwargs).Nodup ∧
    List.Pairwise (fun a b => sortStrict dupKwargs a b = true)
      (sortLinesList "b\na\nb" dupKwargs) :=
  have h := sort_lines_dedup_spec "b\na\nb" dupKwargs rfl
  ⟨h.2.1, h.2.2.1, h.2.2.2.2 rfl⟩

/-- Auxiliary: run lengths of an all-digit text. -/
theorem digitRunLensAux_all_digits :
    ∀ (ds : List Char), (∀ c ∈ ds, isDigitCh c = true) → ∀ cur : Nat,
      digitRunLensAux cur ds = if cur + ds.length = 0 then [] else [cur + ds.length]
  | [], _, cur => by simp [digitRunLensAux]
  | c :: ds, h, cur => by
    have hc : isDigitCh c = true := h c (List.mem_cons_self c ds)
    have ih := digitRunLensAux_all_digits ds
      (fun x hx => h x (List.mem_cons.mpr (Or.inr hx))) (cur + 1)
    simp only [digitRunLensAux, hc, if_true, ih, List.length_cons]
    have h0 : cur + 1 + ds.length ≠ 0 := by omega
    have h1 : cur + (ds.length + 1) ≠ 0 := by omega
    have h2 : cur + 1 + ds.length = cur + (ds.length + 1) := by omega
    rw [if_neg h0, if_neg h1, h2]

/-- Auxiliary: run lengths of an all-digit prefix followed by a non-digit
character and a remainder. -/
theorem digitRunLensAux_append :
    ∀ (ds : List Char), (∀ x ∈ ds, isDigitCh x = true) →
      ∀ (c : Char), isDigitCh c = false → ∀ (T : List Char) (cur : Nat),
      digitRunLensAux cur (ds ++ c :: T) =
        (if cur + ds.length = 0 then [] else [cur + ds.length]) ++ digitRunLensAux 0 T
  | [], _, c, hc, T, cur => by
    simp only [List.nil_append, List.length_nil, Nat.add_zero, digitRunLensAux, hc,
      Bool.false_eq_true, if_false]
    by_cases h0 : cur = 0
    · rw [if_pos h0, if_pos h0, List.nil_append]
    · rw [if_neg h0, if_neg h0, List.cons_append, List.nil_append]
  | d :: ds, h, c, hc, T, cur => by
    have hd : isDigitCh d = true := h d (List.mem_cons_self d ds)
    have ih := digitRunLensAux_append ds
      (fun x hx => h x (List.mem_cons.mpr (Or.inr hx))) c hc T (cur + 1)
    have hstep : digitRunLensAux cur ((d :: ds) ++ c :: T) =
        digitRunLensAux (cur + 1) (ds ++ c :: T) := by
      simp [digitRunLensAux, hd]
    have harith : cur + 1 + ds.length = cur + (ds.length + 1) := by omega
    rw [hstep, ih, List.length_cons, ← harith]

/-- Auxiliary: every character of the run accumulator handed around by
`stripRunsAux` stays a digit, and the output's maximal digit runs are
exactly the input runs whose deletion condition fails, each with its
original length and in order. -/
theorem stripRunsAux_runs :
    ∀ (l : List Char) (cond : Nat → Bool) (prevOk : Bool) (run : List Char),
      (∀ c ∈ run, isDigitCh c = true) →
      digitRunLens (stripRunsAux cond prevOk run l) =
        (runCtxAux prevOk run.length l).filterMap
          (fun e => if cond e.1 && e.2.1 && e.2.2 then none else some e.1)
  | [], cond, prevOk, run, hrun => by
    by_cases hempty : run.isEmpty
    · have hlen : run.length = 0 := by
        cases run with
        | nil => rfl
        | cons a l => simp [List.isEmpty] at hempty
      simp [stripRunsAux, runCtxAux, hempty, hlen, digitRunLens, digitRunLensAux]
    · have hlen : run.length ≠ 0 := by
        cases run with
        | nil => simp [List.isEmpty] at hempty
        | cons a l => simp
      simp only [stripRunsAux, runCtxAux, hempty, Bool.false_eq_true, if_false, if_neg hlen]
      by_cases hcond : (cond run.length && prevOk) = true
      · have h2 : cond run.length = true ∧ prevOk = true := by simpa using hcond
        simp [h2.1, h2.2, digitRunLens, digitRunLensAux]
      · have hc3 : (cond run.length && prevOk && true) = false := by
          simp only [Bool.and_true]
          exact Bool.not_eq_true _ |>.mp hcond
        simp only [if_neg hcond, hc3, Bool.false_eq_true, if_false, List.filterMap_cons,
          List.filterMap_nil]
        rw [digitRunLens, digitRunLensAux_all_digits run hrun 0]
        simp [hlen]
  | c :: l, cond, prevOk, run, hrun => by
    by_cases hc : isDigitCh c = true
    · have ih := stripRunsAux_runs l cond prevOk (run ++ [c])
        (fun x hx => by
          rcases List.mem_append.mp hx with h|h
          · exact hrun x h
          · rw [List.mem_singleton.mp h]; exact hc)
      simp only [stripRunsAux, runCtxAux, hc, if_true, ih, List.length_append,
        List.length_singleton]
    · have hcf : isDigitCh c = false := Bool.not_eq_true _ |>.mp hc
      have ih := stripRunsAux_runs l cond (!(isWordCh c)) [] (by simp)
      simp only [List.length_nil] at ih
      by_cases hempty : run.isEmpty
      · have hrunnil : run = [] := List.isEmpty_iff.mp hempty
        subst hrunnil
        simp only [stripRunsAux, runCtxAux, hcf, Bool.false_eq_true, if_false,
          List.isEmpty_nil, if_true, List.length_nil, List.nil_append,
          List.filterMap_append, List.filterMap_nil]
        show digitRunLens (c :: stripRunsAux cond (!(isWordCh c)) [] l) = _
        have h3 := digitRunLensAux_append [] (by simp) c hcf
          (stripRunsAux cond (!(isWordCh c)) [] l) 0
        simp at h3
        rw [digitRunLens, h3, ← digitRunLens, ih]
      · have hlen : run.length ≠ 0 := by
          cases run with
          | nil => simp [List.isEmpty] at hempty
          | cons a l2 => simp
        simp only [stripRunsAux, runCtxAux, hcf, Bool.false_eq_true, if_false, hempty,
          if_neg hlen, List.filterMap_append, List.filterMap_cons, List.filterMap_nil]
        by_cases hcond : (cond run.length && prevOk && !(isWordCh c)) = true
        · simp only [hcond, if_true, List.nil_append]
          show digitRunLens (c :: stripRunsAux cond (!(isWordCh c)) [] l) = _
          have h3 := digitRunLensAux_append [] (by simp) c hcf
            (stripRunsAux cond (!(isWordCh c)) [] l) 0
          simp at h3
          rw [digitRunLens, h3, ← digitRunLens, ih]
        · have hcondf : (cond run.length && prevOk && !(isWordCh c)) = false :=
            Bool.not_eq_true _ |>.mp hcond
          simp only [hcondf, Bool.false_eq_true, if_false]
          show digitRunLens (run ++ c :: stripRunsAux cond (!(isWordCh c)) [] l) = _
          have := digitRunLensAux_append run hrun c hcf
            (stripRunsAux cond (!(isWordCh c)) [] l) 0
          simp only [Nat.zero_add, if_neg hlen] at this
          rw [digitRunLens, this, ← digitRunLens, ih]

/-- C6 counterexample: on `ab123cd` with `keep_years`, the three-digit run
is adjacent to word characters, so neither pass matches it and the text is
returned unchanged: a 1–3 digit run is not removed, contradicting the
claim that 1–3 digit runs are removed. -/
theorem remove_numbers_keep_years_counterexample :
    remove_numbers "ab123cd" keepYearsKwargs = "ab123cd" ∧
    shortRunCond 3 = true ∧
    digitRunLens ((remove_numbers "ab123cd" keepYearsKwargs) : String).data = [3] := by
  exact ⟨by decide, by decide, by decide⟩

/-- C6 (amended): with `keep_years`, `remove_numbers` is two sequential
substitution passes — first the 1–3-digit-run pass, then the 5-or-more
pass on its output — followed by space collapsing and end trimming; each
pass deletes exactly the maximal digit runs whose length satisfies its
condition and whose neighbouring characters (when present) are non-word
characters, leaving every other run intact with its length — in particular
exactly-4-digit runs always survive both passes, since neither condition
holds at length 4.  On the claimed scenario the run `123` is removed and
`1990` retained. -/
theorem remove_numbers_keep_years_spec :
    (∀ (text : String) (k : Kwargs), k.keep_years = true →
      remove_numbers text k =
        ⟨stripC (collapseSpaces (stripRuns longRunCond (stripRuns shortRunCond text.data)))⟩) ∧
    (∀ (cond : Nat → Bool) (l : List Char),
      digitRunLens (stripRuns cond l) =
        (runCtx l).filterMap
          (fun e => if cond e.1 && e.2.1 && e.2.2 then none else some e.1)) ∧
    (∀ n, shortRunCond n = true ↔ (1 ≤ n ∧ n ≤ 3)) ∧
    (∀ n, longRunCond n = true ↔ 5 ≤ n) ∧
    shortRunCond 4 = false ∧ longRunCond 4 = false ∧
    transform_text "I have 123 apples and was born in 1990." "remove_numbers"
      keepYearsKwargs = Except.ok "I have apples and was born in 1990." := by
  refine ⟨?_, ?_, ?_, ?_, by decide, by decide, by decide⟩
  · intro text k hk
    unfold remove_numbers
    rw [hk]
    simp
  · intro cond l
    exact stripRunsAux_runs l cond true [] (by simp)
  · intro n
    simp [shortRunCond]
  · intro n
    simp [longRunCond]

/-- Witness for C6 on the keep-years equation at a concrete input. -/
theorem remove_numbers_keep_years_spec_witness :
    remove_numbers "a 12 3456" keepYearsKwargs =
      ⟨stripC (collapseSpaces (stripRuns longRunCond
        (stripRuns shortRunCond ("a 12 3456" : String).data)))⟩ :=
  remove_numbers_keep_years_spec.1 "a 12 3456" keepYearsKwargs rfl

end TextProcessor
